import Mathlib

/-!
Verification of the `rust_engine` repository's core algorithms:

* the quantized-key module (`src/math/float3_eps.rs`, `Float3Eps::new`),
* the mesh welder (`load_stl_model_smooth` in `src/main.rs`),
* the `Vec3` / `Matrix4` linear-algebra kernel (`src/math/vec3.rs`,
  `src/math/matrix_4_by_4.rs`),
* the camera model (`src/graphics/camara.rs`) and the per-object model
  matrix built by `Renderer::render_scene` (`src/graphics/render.rs`).

Modelling conventions.  IEEE-754 `f32` arithmetic is embedded as exact
arithmetic: rationals (`ℚ`) where the code only adds, multiplies and
compares (quantization, normal accumulation), reals (`ℝ`) where the code
takes square roots or trigonometric functions (vector magnitudes, camera
bases, rotation matrices).  The one place where a genuinely machine-level
behaviour matters — the `as i32` cast in `Float3Eps::new` — is modelled
with Rust's documented saturating-cast semantics, including the NaN case.
Fallible operations (`Vec3::normalize` and `Vec3::cross`, which abort on
zero-magnitude arguments) are embedded as `Option`-returning functions,
`none` standing for the abort branch.
-/

set_option maxHeartbeats 1000000

namespace RustEngine

/-- A 3-component `f32` value triple (position or normal), modelled exactly
over `ℚ`. -/
abbrev Q3 : Type := ℚ × ℚ × ℚ

/-- The quantized key stored by `Float3Eps` (`[i32; 3]`), modelled as three
integers (each produced by a saturating 32-bit cast). -/
abbrev Key : Type := ℤ × ℤ × ℤ

/-- An `f32` value as consumed by the `as i32` cast: a finite value
(modelled exactly as a rational) or NaN.  Infinities are not needed: under
the saturating cast they behave like out-of-range finite values. -/
inductive F32Val : Type where
  | val (q : ℚ)
  | nan
deriving DecidableEq

/-- Largest `i32` value, `i32::MAX = 2^31 - 1`. -/
def i32Max : ℤ := 2 ^ 31 - 1

/-- Smallest `i32` value, `i32::MIN = -2^31`. -/
def i32Min : ℤ := -(2 ^ 31)

/-- Rust `f32::round`: round to the nearest integer, halves away from
zero.  (Embeds `(x * scale).round()` in `Float3Eps::new`.) -/
def rustRound (q : ℚ) : ℤ :=
  if 0 ≤ q then ⌊q + 1 / 2⌋ else ⌈q - 1 / 2⌉

/-- Rust's `as i32` cast applied to a rounded `f32`: saturates above
`i32::MAX` and below `i32::MIN`, and maps NaN to 0 (Rust reference
semantics for float-to-int casts). -/
def roundToI32 (x : F32Val) : ℤ :=
  match x with
  | .val q => max i32Min (min i32Max (rustRound q))
  | .nan => 0

/-- `Float3Eps::new(x, y, z)`: multiply each coordinate by the fixed scale
`1e4` and round-cast to `i32` (`float3_eps.rs` lines 5-12). -/
def float3EpsNew (x y z : ℚ) : Key :=
  (roundToI32 (.val (x * 10000)),
   roundToI32 (.val (y * 10000)),
   roundToI32 (.val (z * 10000)))

/-- The key computed for a position triple, as used by the welder
(`main.rs` line 63). -/
def quantKey (p : Q3) : Key := float3EpsNew p.1 p.2.1 p.2.2

/-- Ceiling expressed through floor, so that concrete `rustRound` values
can be computed by `norm_num`'s floor extension. -/
lemma ceil_as_floor (x : ℚ) : ⌈x⌉ = -⌊-x⌋ := by
  rw [Int.floor_neg]
  omega

/-- Rounding half away from zero lands within 1/2 of the input. -/
lemma rustRound_near (q : ℚ) : |(rustRound q : ℚ) - q| ≤ 1 / 2 := by
  rw [abs_le, rustRound]
  split
  · have h1 := Int.floor_le (q + 1 / 2)
    have h2 := Int.lt_floor_add_one (q + 1 / 2)
    constructor <;> linarith
  · have h1 := Int.le_ceil (q - 1 / 2)
    have h2 := Int.ceil_lt_add_one (q - 1 / 2)
    constructor <;> linarith

/-- Scaled coordinates more than one quantization cell apart round to
different integers. -/
lemma rustRound_separation {a b : ℚ} (h : 1 < |a - b|) :
    rustRound a ≠ rustRound b := by
  intro heq
  have ha := rustRound_near a
  have hb := rustRound_near b
  rw [abs_le] at ha hb
  rw [lt_abs] at h
  rw [heq] at ha
  rcases h with h | h <;> linarith

/-- For inputs within the non-saturating coordinate range the `as i32`
cast is the plain round. -/
lemma roundToI32_of_small {q : ℚ} (h : |q| ≤ 2147480000) :
    roundToI32 (.val q) = rustRound q := by
  have hnear := rustRound_near q
  rw [abs_le] at h hnear
  have hub : (rustRound q : ℚ) ≤ 2147480001 := by linarith
  have hlb : (-2147480001 : ℚ) ≤ (rustRound q : ℚ) := by linarith
  have hub' : rustRound q ≤ 2147480001 := by exact_mod_cast hub
  have hlb' : (-2147480001 : ℤ) ≤ rustRound q := by exact_mod_cast hlb
  rw [roundToI32]
  rw [min_eq_right (by rw [i32Max]; omega), max_eq_right (by rw [i32Min]; omega)]

/-- C1 (amended): for positions whose coordinates lie in the
non-saturating range (|c| ≤ 214748), differing by more than `1e-4` in at
least one axis forces different `Float3Eps` keys, so the two positions
never weld.  (The other half of the original claim — sub-`5e-5` proximity
in every axis forcing equal keys — is false: see the counterexample.) -/
theorem quantKey_separation (x y : Q3)
    (hx : |x.1| ≤ 214748 ∧ |x.2.1| ≤ 214748 ∧ |x.2.2| ≤ 214748)
    (hy : |y.1| ≤ 214748 ∧ |y.2.1| ≤ 214748 ∧ |y.2.2| ≤ 214748)
    (hsep : 1 / 10000 < |x.1 - y.1| ∨ 1 / 10000 < |x.2.1 - y.2.1| ∨
      1 / 10000 < |x.2.2 - y.2.2|) :
    quantKey x ≠ quantKey y := by
  obtain ⟨hx1, hx2, hx3⟩ := hx
  obtain ⟨hy1, hy2, hy3⟩ := hy
  have small : ∀ c : ℚ, |c| ≤ 214748 → |c * 10000| ≤ 2147480000 := by
    intro c hc
    rw [abs_mul]
    calc |c| * |(10000 : ℚ)| ≤ 214748 * 10000 := by
          apply mul_le_mul hc (by norm_num) (abs_nonneg _) (by norm_num)
      _ = 2147480000 := by norm_num
  have sep : ∀ a b : ℚ, 1 / 10000 < |a - b| → 1 < |a * 10000 - b * 10000| := by
    intro a b hab
    have : |a * 10000 - b * 10000| = |a - b| * 10000 := by
      rw [show a * 10000 - b * 10000 = (a - b) * 10000 by ring, abs_mul]
      norm_num
    rw [this]
    nlinarith [abs_nonneg (a - b)]
  intro hkey
  rw [quantKey, quantKey, float3EpsNew, float3EpsNew, Prod.ext_iff, Prod.ext_iff] at hkey
  obtain ⟨k1, k2, k3⟩ := hkey
  rcases hsep with hs | hs | hs
  · rw [roundToI32_of_small (small _ hx1), roundToI32_of_small (small _ hy1)] at k1
    exact rustRound_separation (sep _ _ hs) k1
  · rw [roundToI32_of_small (small _ hx2), roundToI32_of_small (small _ hy2)] at k2
    exact rustRound_separation (sep _ _ hs) k2
  · rw [roundToI32_of_small (small _ hx3), roundToI32_of_small (small _ hy3)] at k3
    exact rustRound_separation (sep _ _ hs) k3

/-- C1 witness: two positions one unit apart on the x axis get distinct
keys. -/
theorem quantKey_separation_witness :
    (|(1 : ℚ)| ≤ 214748 ∧ 1 / 10000 < |(1 : ℚ) - 0|) ∧
      quantKey (1, 0, 0) ≠ quantKey (0, 0, 0) :=
  ⟨⟨by norm_num, by norm_num⟩,
    quantKey_separation (1, 0, 0) (0, 0, 0)
      ⟨by norm_num, by norm_num, by norm_num⟩
      ⟨by norm_num, by norm_num, by norm_num⟩
      (Or.inl (by norm_num))⟩

/-- C1 counterexample: positions `x = 4.9e-5` and `y = 9.8e-5` differ by
`4.9e-5 < 5e-5` in every axis yet quantize to different keys (scaled they
are 0.49 and 0.98, which round to 0 and 1), refuting the claim that
sub-`5e-5` proximity in every axis guarantees welding. -/
theorem quantKey_close_not_equal :
    ¬ (∀ x y : Q3,
        (|x.1 - y.1| < 5 / 100000 ∧ |x.2.1 - y.2.1| < 5 / 100000 ∧
          |x.2.2 - y.2.2| < 5 / 100000) →
        quantKey x = quantKey y) := by
  intro h
  have hc := h (49 / 1000000, 0, 0) (98 / 1000000, 0, 0)
    (by refine ⟨?_, ?_, ?_⟩ <;> norm_num [abs_lt])
  have e1 : quantKey (49 / 1000000, 0, 0) = (0, 0, 0) := by
    norm_num [quantKey, float3EpsNew, roundToI32, rustRound, i32Max, i32Min,
      Prod.ext_iff]
  have e2 : quantKey (98 / 1000000, 0, 0) = (1, 0, 0) := by
    norm_num [quantKey, float3EpsNew, roundToI32, rustRound, i32Max, i32Min,
      Prod.ext_iff]
  rw [e1, e2, Prod.ext_iff] at hc
  exact absurd hc.1 (by norm_num)

/-- C10: the `as i32` cast in `Float3Eps::new` saturates rather than
wrapping: a scaled coordinate rounding above `i32::MAX` stores
`i32::MAX`, one rounding below `i32::MIN` stores `i32::MIN`, NaN stores 0,
and all coordinates at or beyond `214749` produce the same (saturated)
key component no matter how far apart they are. -/
theorem roundToI32_saturates :
    (∀ q : ℚ, i32Max < rustRound q → roundToI32 (.val q) = i32Max) ∧
    (∀ q : ℚ, rustRound q < i32Min → roundToI32 (.val q) = i32Min) ∧
    roundToI32 .nan = 0 ∧
    (∀ c₁ c₂ : ℚ, 214749 ≤ c₁ → 214749 ≤ c₂ →
      (float3EpsNew c₁ 0 0).1 = (float3EpsNew c₂ 0 0).1) := by
  have hsatHi : ∀ q : ℚ, i32Max < rustRound q → roundToI32 (.val q) = i32Max := by
    intro q hq
    rw [roundToI32, min_eq_left (le_of_lt hq), max_eq_right]
    rw [i32Max, i32Min]; omega
  refine ⟨hsatHi, ?_, rfl, ?_⟩
  · intro q hq
    rw [roundToI32, max_eq_left]
    exact le_trans (min_le_right _ _) (le_of_lt hq)
  · intro c₁ c₂ h1 h2
    have big : ∀ c : ℚ, 214749 ≤ c → i32Max < rustRound (c * 10000) := by
      intro c hc
      have hge : (2147490000 : ℚ) ≤ c * 10000 := by nlinarith
      have hnear := rustRound_near (c * 10000)
      rw [abs_le] at hnear
      have : (2147489999 : ℚ) < (rustRound (c * 10000) : ℚ) := by linarith
      rw [i32Max]
      have : (2147489999 : ℤ) < rustRound (c * 10000) := by exact_mod_cast this
      omega
    show roundToI32 (.val (c₁ * 10000)) = roundToI32 (.val (c₂ * 10000))
    rw [hsatHi _ (big c₁ h1), hsatHi _ (big c₂ h2)]

/-- C10 witness: concrete saturation — `1e10` saturates to `i32::MAX`,
`-1e10` to `i32::MIN`, and the first key components of positions
`x = 3e5` and `x = 4e5` coincide despite being `1e5` apart. -/
theorem roundToI32_saturates_witness :
    roundToI32 (.val (10 ^ 10)) = i32Max ∧
      roundToI32 (.val (-(10 ^ 10))) = i32Min ∧
      (float3EpsNew 300000 0 0).1 = (float3EpsNew 400000 0 0).1 :=
  ⟨roundToI32_saturates.1 _ (by norm_num [rustRound, i32Max]),
    roundToI32_saturates.2.1 _
      (by norm_num [rustRound, i32Min, ceil_as_floor]),
    roundToI32_saturates.2.2.2 300000 400000 (by norm_num) (by norm_num)⟩

/-! ## Mesh welder (`load_stl_model_smooth`, `src/main.rs` lines 41-122)

The `HashMap<Float3Eps, u32>` maps a key to the index at which the
corresponding entry was appended to `unique_vertices`; since values are
exactly the insertion positions, the map is embedded as the list of
unique-vertex entries itself (each entry caching its key), with lookup
returning the position of the first entry carrying the key. -/

/-- One entry of `unique_vertices` (`VertexData` in `main.rs`), together
with the quantized key under which it was inserted into `vertex_map`. -/
structure VertexData where
  key : Key
  pos : Q3
  nsum : Q3
deriving DecidableEq

/-- One triangular face of the parsed surface: the face normal and three
vertex positions (`face.normal` and the three `mesh.vertices[idx]`
lookups).  The STL vertex-pool indirection is resolved during parsing, so
a face carries its positions directly. -/
structure Face where
  normal : Q3
  va : Q3
  vb : Q3
  vc : Q3
deriving DecidableEq

/-- The welder's working state: the growing `unique_vertices` list (which
also plays the role of `vertex_map`, see above) and the growing `indices`
list. -/
structure WeldState where
  verts : List VertexData
  indices : List ℕ
deriving DecidableEq

/-- `vertex_map.get(&key)`: index of the first (and, by construction,
only) unique-vertex entry carrying `k`. -/
def keyIdx (k : Key) : List VertexData → Option ℕ
  | [] => none
  | v :: vs => if v.key = k then some 0 else (keyIdx k vs).map (· + 1)

/-- `unique_vertices[i].normal += face_normal` (the three `+=` statements
in `main.rs` lines 84-86). -/
def bumpNormal (n : Q3) : ℕ → List VertexData → List VertexData
  | _, [] => []
  | 0, v :: vs => { v with nsum := v.nsum + n } :: vs
  | i + 1, v :: vs => v :: bumpNormal n i vs

/-- Process one vertex occurrence `o = (face normal, position)`: resolve
the key to an existing index or append a fresh entry with zero normal
sum, accumulate the face normal at the resolved index, and append the
index (`main.rs` lines 61-90, inner loop body). -/
def weldOcc (st : WeldState) (o : Q3 × Q3) : WeldState :=
  let key := quantKey o.2
  match keyIdx key st.verts with
  | some i => ⟨bumpNormal o.1 i st.verts, st.indices ++ [i]⟩
  | none =>
      ⟨bumpNormal o.1 st.verts.length (st.verts ++ [⟨key, o.2, 0⟩]),
        st.indices ++ [st.verts.length]⟩

/-- Unfolding `weldOcc` when the key is absent from the map (`None` branch
of `vertex_map.get`). -/
lemma weldOcc_missing (st : WeldState) (o : Q3 × Q3) (k : Key)
    (hk : quantKey o.2 = k) (h : keyIdx k st.verts = none) :
    weldOcc st o =
      ⟨bumpNormal o.1 st.verts.length (st.verts ++ [⟨k, o.2, 0⟩]),
        st.indices ++ [st.verts.length]⟩ := by
  simp only [weldOcc, hk]
  rw [h]

/-- Unfolding `weldOcc` when the key is already mapped (`Some` branch of
`vertex_map.get`). -/
lemma weldOcc_found (st : WeldState) (o : Q3 × Q3) (k : Key) (i : ℕ)
    (hk : quantKey o.2 = k) (h : keyIdx k st.verts = some i) :
    weldOcc st o = ⟨bumpNormal o.1 i st.verts, st.indices ++ [i]⟩ := by
  simp only [weldOcc, hk]
  rw [h]

/-- The three vertex occurrences contributed by one face, in face order. -/
def faceOccs (f : Face) : List (Q3 × Q3) :=
  [(f.normal, f.va), (f.normal, f.vb), (f.normal, f.vc)]

/-- Process one face (`for &idx in &face.vertices`). -/
def weldFace (st : WeldState) (f : Face) : WeldState :=
  (faceOccs f).foldl weldOcc st

/-- Process a whole triangle soup (`for face in &mesh.faces`), starting
from the empty map/lists. -/
def weldFaces (faces : List Face) : WeldState :=
  faces.foldl weldFace ⟨[], []⟩

/-- All vertex occurrences of a face list, in processing order. -/
def occs (faces : List Face) : List (Q3 × Q3) :=
  faces.flatMap faceOccs

/-- The flattened `positions` output (`main.rs` lines 111-114). -/
def positionsOf (st : WeldState) : List ℚ :=
  st.verts.flatMap fun v => [v.pos.1, v.pos.2.1, v.pos.2.2]

/-- Squared length of an accumulated normal
(`nx * nx + ny * ny + nz * nz` in `main.rs` line 98). -/
def nsq (n : Q3) : ℚ := n.1 * n.1 + n.2.1 * n.2.1 + n.2.2 * n.2.2

/-- The final per-vertex normal (`main.rs` lines 94-105): compute the
Euclidean length of the accumulated sum; divide by it componentwise when
it exceeds `1e-8`, otherwise leave the accumulated sum unchanged. -/
noncomputable def finalNormal (n : Q3) : ℝ × ℝ × ℝ :=
  let len : ℝ := Real.sqrt ((nsq n : ℚ) : ℝ)
  if 1e-8 < len then ((n.1 : ℝ) / len, (n.2.1 : ℝ) / len, (n.2.2 : ℝ) / len)
  else ((n.1 : ℝ), (n.2.1 : ℝ), (n.2.2 : ℝ))

/-- The flattened `normals` output (`main.rs` lines 116-118). -/
noncomputable def normalsOf (st : WeldState) : List ℝ :=
  st.verts.flatMap fun v =>
    [(finalNormal v.nsum).1, (finalNormal v.nsum).2.1, (finalNormal v.nsum).2.2]

lemma bumpNormal_length (n : Q3) (i : ℕ) (l : List VertexData) :
    (bumpNormal n i l).length = l.length := by
  induction l generalizing i with
  | nil => cases i <;> rfl
  | cons v vs ih => cases i with
    | zero => rfl
    | succ j => simpa [bumpNormal] using ih j

lemma keyIdx_lt_length {k : Key} {l : List VertexData} {i : ℕ}
    (h : keyIdx k l = some i) : i < l.length := by
  induction l generalizing i with
  | nil => exact Option.noConfusion h
  | cons v vs ih =>
    rw [keyIdx] at h
    by_cases hv : v.key = k
    · rw [if_pos hv] at h
      cases h
      simp
    · rw [if_neg hv] at h
      cases hj : keyIdx k vs with
      | none => rw [hj] at h; simp at h
      | some j =>
        rw [hj] at h
        replace h : some (j + 1) = some i := h
        cases h
        have := ih hj
        simp
        omega

lemma weldOcc_step (st : WeldState) (o : Q3 × Q3)
    (h : ∀ i ∈ st.indices, i < st.verts.length) :
    (∀ i ∈ (weldOcc st o).indices, i < (weldOcc st o).verts.length) ∧
    (weldOcc st o).indices.length = st.indices.length + 1 ∧
    st.verts.length ≤ (weldOcc st o).verts.length := by
  rw [weldOcc]
  cases hk : keyIdx (quantKey o.2) st.verts with
  | some i =>
    simp only [bumpNormal_length, List.length_append]
    refine ⟨?_, by simp, le_refl _⟩
    intro j hj
    rcases List.mem_append.1 hj with hj | hj
    · exact h j hj
    · simp at hj
      subst hj
      exact keyIdx_lt_length hk
  | none =>
    simp only [bumpNormal_length, List.length_append, List.length_cons,
      List.length_nil]
    refine ⟨?_, by simp, by omega⟩
    intro j hj
    rcases List.mem_append.1 hj with hj | hj
    · have := h j hj
      omega
    · simp at hj
      omega

lemma weldOccs_invariant (os : List (Q3 × Q3)) :
    ∀ st : WeldState, (∀ i ∈ st.indices, i < st.verts.length) →
      (∀ i ∈ (os.foldl weldOcc st).indices, i < (os.foldl weldOcc st).verts.length) ∧
      (os.foldl weldOcc st).indices.length = st.indices.length + os.length ∧
      st.verts.length ≤ (os.foldl weldOcc st).verts.length := by
  induction os with
  | nil => intro st h; exact ⟨h, by simp, le_refl _⟩
  | cons o os ih =>
    intro st h
    obtain ⟨h1, h2, h3⟩ := weldOcc_step st o h
    obtain ⟨g1, g2, g3⟩ := ih (weldOcc st o) h1
    refine ⟨by simpa using g1, ?_, ?_⟩
    · simp only [List.foldl_cons] at *
      rw [g2, h2]
      simp [List.length_cons]
      omega
    · simp only [List.foldl_cons] at *
      exact le_trans h3 g3

lemma weldFaces_eq_foldl_occs (faces : List Face) :
    ∀ st : WeldState, faces.foldl weldFace st = (occs faces).foldl weldOcc st := by
  induction faces with
  | nil => intro st; rfl
  | cons f fs ih =>
    intro st
    rw [occs, List.flatMap_cons, List.foldl_append, List.foldl_cons, ih]
    rfl

lemma occs_length (faces : List Face) : (occs faces).length = 3 * faces.length := by
  induction faces with
  | nil => rfl
  | cons f fs ih =>
    rw [occs, List.flatMap_cons, List.length_append]
    rw [occs] at ih
    rw [ih]
    simp [faceOccs]
    ring

lemma positionsOf_length (st : WeldState) :
    (positionsOf st).length = 3 * st.verts.length := by
  rw [positionsOf]
  induction st.verts with
  | nil => rfl
  | cons v vs ih => simp [List.flatMap_cons, ih] at *; omega

lemma normalsOf_length (st : WeldState) :
    (normalsOf st).length = 3 * st.verts.length := by
  rw [normalsOf]
  induction st.verts with
  | nil => rfl
  | cons v vs ih => simp [List.flatMap_cons, ih] at *; omega

/-- C2: for every triangle-soup input of `n` faces the welder emits
exactly `3·n` indices, equally many flattened position and normal
components (three per unique vertex), and every emitted index is
strictly below the number of unique vertices. -/
theorem weld_output_sizes (faces : List Face) :
    (weldFaces faces).indices.length = 3 * faces.length ∧
    (positionsOf (weldFaces faces)).length = (normalsOf (weldFaces faces)).length ∧
    (positionsOf (weldFaces faces)).length = 3 * (weldFaces faces).verts.length ∧
    ∀ i ∈ (weldFaces faces).indices, i < (weldFaces faces).verts.length := by
  have base : ∀ i ∈ (⟨[], []⟩ : WeldState).indices,
      i < (⟨[], []⟩ : WeldState).verts.length := by simp
  have key := weldOccs_invariant (occs faces) ⟨[], []⟩ base
  rw [weldFaces, weldFaces_eq_foldl_occs]
  refine ⟨?_, ?_, positionsOf_length _, key.1⟩
  · rw [key.2.1, occs_length]
    simp
  · rw [positionsOf_length, normalsOf_length]

lemma weldOcc_indices_mono (st : WeldState) (o : Q3 × Q3) :
    st.indices ⊆ (weldOcc st o).indices := by
  rw [weldOcc]
  cases keyIdx (quantKey o.2) st.verts <;>
    exact fun i hi => List.mem_append_left _ hi

lemma weldOccs_indices_mono (os : List (Q3 × Q3)) :
    ∀ st : WeldState, st.indices ⊆ (os.foldl weldOcc st).indices := by
  induction os with
  | nil => intro st; exact fun i hi => hi
  | cons o os ih =>
    intro st
    exact fun i hi => ih (weldOcc st o) (weldOcc_indices_mono st o hi)

/-- C2 witness: a concrete one-face soup; index `0` is emitted and is
below the unique-vertex count. -/
theorem weld_output_sizes_witness :
    (0 : ℕ) ∈ (weldFaces [⟨(0, 0, 1), (0, 0, 0), (1, 0, 0), (0, 1, 0)⟩]).indices ∧
      0 < (weldFaces [⟨(0, 0, 1), (0, 0, 0), (1, 0, 0), (0, 1, 0)⟩]).verts.length := by
  have hs := (weld_output_sizes [⟨(0, 0, 1), (0, 0, 0), (1, 0, 0), (0, 1, 0)⟩]).2.2.2
  have hmem : (0 : ℕ) ∈ (weldFaces [⟨(0, 0, 1), (0, 0, 0), (1, 0, 0), (0, 1, 0)⟩]).indices := by
    rw [weldFaces, weldFaces_eq_foldl_occs]
    show (0 : ℕ) ∈ (List.foldl weldOcc ⟨[], []⟩
      (occs [⟨(0, 0, 1), (0, 0, 0), (1, 0, 0), (0, 1, 0)⟩])).indices
    rw [occs, List.flatMap_cons, List.flatMap_nil, List.append_nil, faceOccs,
      List.foldl_cons]
    apply weldOccs_indices_mono
    show (0 : ℕ) ∈ (weldOcc ⟨[], []⟩ ((0, 0, 1), (0, 0, 0))).indices
    have : (weldOcc ⟨[], []⟩ ((0, 0, 1), (0, 0, 0))).indices = [0] := rfl
    rw [this]
    simp
  exact ⟨hmem, lt_of_le_of_lt (Nat.zero_le _) (hs 0 hmem)⟩

/-! ## C3: final normals are unit length or the raw accumulated sum -/

lemma nsq_nonneg (n : Q3) : 0 ≤ nsq n := by
  rw [nsq]
  nlinarith [mul_self_nonneg n.1, mul_self_nonneg n.2.1, mul_self_nonneg n.2.2]

/-- The code's guard `1e-8 < length` holds exactly when the squared sum
exceeds `1e-16`. -/
lemma finalNormal_cond (n : Q3) :
    ((1e-8 : ℝ) < Real.sqrt ((nsq n : ℚ) : ℝ)) ↔ ((1 : ℚ) / 10 ^ 16 < nsq n) := by
  rw [Real.lt_sqrt (by norm_num)]
  rw [show ((1e-8 : ℝ) ^ 2) = ((1 / 10 ^ 16 : ℚ) : ℝ) by norm_num]
  exact Rat.cast_lt

/-- C3 (amended): for every vertex produced by welding, when the
accumulated normal's squared length exceeds `1e-16` (the code's
`length > 1e-8` guard) the output normal is the accumulated sum divided
componentwise by its Euclidean length, and its magnitude is exactly 1 in
exact arithmetic (hence within `1.0 ± 1e-6`); otherwise the accumulated
sum is left unchanged — which is the zero vector only when the sum itself
is zero, not in general. -/
theorem finalNormal_unit_or_raw (faces : List Face) (v : VertexData)
    (hv : v ∈ (weldFaces faces).verts) :
    ((1 : ℚ) / 10 ^ 16 < nsq v.nsum →
      finalNormal v.nsum =
        ((v.nsum.1 : ℝ) / Real.sqrt ((nsq v.nsum : ℚ) : ℝ),
         (v.nsum.2.1 : ℝ) / Real.sqrt ((nsq v.nsum : ℚ) : ℝ),
         (v.nsum.2.2 : ℝ) / Real.sqrt ((nsq v.nsum : ℚ) : ℝ)) ∧
      Real.sqrt ((finalNormal v.nsum).1 ^ 2 + (finalNormal v.nsum).2.1 ^ 2 +
        (finalNormal v.nsum).2.2 ^ 2) = 1) ∧
    (nsq v.nsum ≤ (1 : ℚ) / 10 ^ 16 →
      finalNormal v.nsum = ((v.nsum.1 : ℝ), (v.nsum.2.1 : ℝ), (v.nsum.2.2 : ℝ))) := by
  constructor
  · intro h
    have hcond := (finalNormal_cond v.nsum).mpr h
    have heq : finalNormal v.nsum =
        ((v.nsum.1 : ℝ) / Real.sqrt ((nsq v.nsum : ℚ) : ℝ),
         (v.nsum.2.1 : ℝ) / Real.sqrt ((nsq v.nsum : ℚ) : ℝ),
         (v.nsum.2.2 : ℝ) / Real.sqrt ((nsq v.nsum : ℚ) : ℝ)) := by
      rw [finalNormal]
      simp only [if_pos hcond]
    refine ⟨heq, ?_⟩
    rw [heq]
    have hS : (0 : ℝ) < ((nsq v.nsum : ℚ) : ℝ) := by
      have : (0 : ℚ) < nsq v.nsum := lt_trans (by norm_num) h
      exact_mod_cast this
    have hL : (0 : ℝ) < Real.sqrt ((nsq v.nsum : ℚ) : ℝ) := Real.sqrt_pos.mpr hS
    have hsumsq : ((v.nsum.1 : ℝ) / Real.sqrt ((nsq v.nsum : ℚ) : ℝ)) ^ 2 +
        ((v.nsum.2.1 : ℝ) / Real.sqrt ((nsq v.nsum : ℚ) : ℝ)) ^ 2 +
        ((v.nsum.2.2 : ℝ) / Real.sqrt ((nsq v.nsum : ℚ) : ℝ)) ^ 2 = 1 := by
      have hL2 : Real.sqrt ((nsq v.nsum : ℚ) : ℝ) ^ 2 = ((nsq v.nsum : ℚ) : ℝ) :=
        Real.sq_sqrt hS.le
      field_simp
      rw [nsq]
      push_cast
      ring
    rw [hsumsq]
    exact Real.sqrt_one
  · intro h
    have hcond : ¬ ((1e-8 : ℝ) < Real.sqrt ((nsq v.nsum : ℚ) : ℝ)) := by
      rw [finalNormal_cond]
      exact not_lt.mpr h
    rw [finalNormal]
    simp only [if_neg hcond]

/-- Key of the position `(0,0,0)`. -/
lemma quantKey_p000 : quantKey (0, 0, 0) = (0, 0, 0) := by
  norm_num [quantKey, float3EpsNew, roundToI32, rustRound, i32Max, i32Min,
    Prod.ext_iff]

/-- Key of the position `(1,0,0)`. -/
lemma quantKey_p100 : quantKey (1, 0, 0) = (10000, 0, 0) := by
  norm_num [quantKey, float3EpsNew, roundToI32, rustRound, i32Max, i32Min,
    Prod.ext_iff]

/-- Key of the position `(0,1,0)`. -/
lemma quantKey_p010 : quantKey (0, 1, 0) = (0, 10000, 0) := by
  norm_num [quantKey, float3EpsNew, roundToI32, rustRound, i32Max, i32Min,
    Prod.ext_iff]

lemma weldFaces_singleton (f : Face) : weldFaces [f] = weldFace ⟨[], []⟩ f := rfl

lemma weldFace_expand (st : WeldState) (f : Face) :
    weldFace st f =
      weldOcc (weldOcc (weldOcc st (f.normal, f.va)) (f.normal, f.vb))
        (f.normal, f.vc) := rfl

/-- Welding one triangle with three distinct far-apart vertices produces
three unique vertices, each accumulating the face normal once. -/
lemma weldFaces_tri_eval (nrm : Q3) :
    weldFaces [⟨nrm, (0, 0, 0), (1, 0, 0), (0, 1, 0)⟩] =
      ⟨[⟨(0, 0, 0), (0, 0, 0), nrm⟩, ⟨(10000, 0, 0), (1, 0, 0), nrm⟩,
        ⟨(0, 10000, 0), (0, 1, 0), nrm⟩], [0, 1, 2]⟩ := by
  rw [weldFaces_singleton, weldFace_expand]
  dsimp only
  have e1 : weldOcc ⟨[], []⟩ (nrm, ((0 : ℚ), (0 : ℚ), (0 : ℚ))) =
      ⟨[⟨(0, 0, 0), (0, 0, 0), nrm⟩], [0]⟩ := by
    rw [weldOcc_missing ⟨[], []⟩ (nrm, ((0 : ℚ), (0 : ℚ), (0 : ℚ))) (0, 0, 0)
      quantKey_p000 rfl]
    simp [-Prod.mk_zero_zero, bumpNormal]
  rw [e1]
  have e2 : weldOcc ⟨[⟨(0, 0, 0), (0, 0, 0), nrm⟩], [0]⟩
      (nrm, ((1 : ℚ), (0 : ℚ), (0 : ℚ))) =
      ⟨[⟨(0, 0, 0), (0, 0, 0), nrm⟩, ⟨(10000, 0, 0), (1, 0, 0), nrm⟩], [0, 1]⟩ := by
    rw [weldOcc_missing ⟨[⟨(0, 0, 0), (0, 0, 0), nrm⟩], [0]⟩
      (nrm, ((1 : ℚ), (0 : ℚ), (0 : ℚ))) (10000, 0, 0) quantKey_p100
      (by simp [keyIdx, Prod.ext_iff])]
    simp [-Prod.mk_zero_zero, bumpNormal]
  rw [e2]
  rw [weldOcc_missing
    ⟨[⟨(0, 0, 0), (0, 0, 0), nrm⟩, ⟨(10000, 0, 0), (1, 0, 0), nrm⟩], [0, 1]⟩
    (nrm, ((0 : ℚ), (1 : ℚ), (0 : ℚ))) (0, 10000, 0) quantKey_p010
    (by simp [keyIdx, Prod.ext_iff])]
  simp [-Prod.mk_zero_zero, bumpNormal]

/-- C3 witness: for the one-triangle soup with face normal `(0,0,1)` the
first welded vertex has accumulated normal `(0,0,1)`, its squared length
1 exceeds `1e-16`, and the output normal has magnitude exactly 1. -/
theorem finalNormal_unit_or_raw_witness :
    (⟨(0, 0, 0), (0, 0, 0), (0, 0, 1)⟩ : VertexData) ∈
        (weldFaces [⟨(0, 0, 1), (0, 0, 0), (1, 0, 0), (0, 1, 0)⟩]).verts ∧
      (1 : ℚ) / 10 ^ 16 < nsq (0, 0, 1) ∧
      Real.sqrt ((finalNormal ((0 : ℚ), (0 : ℚ), (1 : ℚ))).1 ^ 2 +
        (finalNormal ((0 : ℚ), (0 : ℚ), (1 : ℚ))).2.1 ^ 2 +
        (finalNormal ((0 : ℚ), (0 : ℚ), (1 : ℚ))).2.2 ^ 2) = 1 := by
  have hmem : (⟨(0, 0, 0), (0, 0, 0), (0, 0, 1)⟩ : VertexData) ∈
      (weldFaces [⟨(0, 0, 1), (0, 0, 0), (1, 0, 0), (0, 1, 0)⟩]).verts := by
    rw [weldFaces_tri_eval]
    simp
  refine ⟨hmem, by norm_num [nsq], ?_⟩
  exact ((finalNormal_unit_or_raw _ _ hmem).1 (by norm_num [nsq])).2

/-- C3 counterexample: the claim as stated — every output normal is the
zero vector or the normalized sum — fails for the face normal `1e-9`:
its accumulated length `1e-9 ≤ 1e-8` takes the else-branch, leaving the
raw sum `(1e-9, 0, 0)`, which is neither the zero vector nor the unit
vector `(1, 0, 0)`. -/
theorem finalNormal_claimC3_false :
    ¬ (∀ faces : List Face, ∀ v ∈ (weldFaces faces).verts,
        finalNormal v.nsum = (0, 0, 0) ∨
        finalNormal v.nsum =
          ((v.nsum.1 : ℝ) / Real.sqrt ((nsq v.nsum : ℚ) : ℝ),
           (v.nsum.2.1 : ℝ) / Real.sqrt ((nsq v.nsum : ℚ) : ℝ),
           (v.nsum.2.2 : ℝ) / Real.sqrt ((nsq v.nsum : ℚ) : ℝ))) := by
  intro h
  have hmem : (⟨(0, 0, 0), (0, 0, 0), (1 / 10 ^ 9, 0, 0)⟩ : VertexData) ∈
      (weldFaces [⟨(1 / 10 ^ 9, 0, 0), (0, 0, 0), (1, 0, 0), (0, 1, 0)⟩]).verts := by
    rw [weldFaces_tri_eval]
    simp
  have hc := h _ _ hmem
  have hsqrt : Real.sqrt ((nsq ((1: ℚ) / 10 ^ 9, (0 : ℚ), (0 : ℚ)) : ℚ) : ℝ) =
      1 / 10 ^ 9 := by
    rw [show ((nsq ((1 : ℚ) / 10 ^ 9, (0 : ℚ), (0 : ℚ)) : ℚ) : ℝ) =
        ((1 : ℝ) / 10 ^ 9) ^ 2 by push_cast [nsq]; norm_num]
    exact Real.sqrt_sq (by norm_num)
  have heval : finalNormal ((1 : ℚ) / 10 ^ 9, (0 : ℚ), (0 : ℚ)) =
      ((1 : ℝ) / 10 ^ 9, (0 : ℝ), (0 : ℝ)) := by
    rw [finalNormal]
    rw [if_neg]
    · push_cast
      norm_num
    · rw [hsqrt]
      norm_num
  rcases hc with hc | hc
  · rw [heval, Prod.ext_iff] at hc
    have := hc.1
    norm_num at this
  · rw [heval, hsqrt, Prod.ext_iff] at hc
    have := hc.1
    push_cast at this
    norm_num at this

/-! ## C4: the welded vertex set is invariant under face-order permutation

`bucketSum os k` is the total face-normal sum that the welder accumulates
for quantization bucket `k` over the occurrence list `os`; it is a
multiset sum, hence permutation-invariant. -/

/-- Sum of the face normals of all occurrences whose position quantizes
to `k`. -/
def bucketSum (os : List (Q3 × Q3)) (k : Key) : Q3 :=
  ((os.filter fun o => decide (quantKey o.2 = k)).map Prod.fst).sum

lemma bucketSum_append (os₁ os₂ : List (Q3 × Q3)) (k : Key) :
    bucketSum (os₁ ++ os₂) k = bucketSum os₁ k + bucketSum os₂ k := by
  simp [bucketSum, List.filter_append]

lemma bucketSum_single_eq {o : Q3 × Q3} {k : Key} (h : quantKey o.2 = k) :
    bucketSum [o] k = o.1 := by
  simp [bucketSum, List.filter_cons, h]

lemma bucketSum_single_ne {o : Q3 × Q3} {k : Key} (h : ¬ quantKey o.2 = k) :
    bucketSum [o] k = 0 := by
  simp [bucketSum, List.filter_cons, h]

lemma bucketSum_eq_zero {os : List (Q3 × Q3)} {k : Key}
    (h : ∀ o ∈ os, ¬ quantKey o.2 = k) : bucketSum os k = 0 := by
  rw [bucketSum, List.filter_eq_nil_iff.mpr]
  · rfl
  · intro o ho
    simpa using h o ho

lemma bucketSum_perm {os os' : List (Q3 × Q3)} (h : os.Perm os') (k : Key) :
    bucketSum os k = bucketSum os' k :=
  List.Perm.sum_eq ((h.filter _).map _)

lemma keyIdx_none_iff {k : Key} {l : List VertexData} :
    keyIdx k l = none ↔ ∀ v ∈ l, ¬ v.key = k := by
  induction l with
  | nil => simp [keyIdx]
  | cons v vs ih =>
    rw [keyIdx]
    by_cases hv : v.key = k
    · simp [hv]
    · simp [hv, Option.map_eq_none', ih]

lemma keyIdx_some_mem {k : Key} {l : List VertexData} {i : ℕ}
    (h : keyIdx k l = some i) : ∃ v ∈ l, v.key = k := by
  induction l generalizing i with
  | nil => exact Option.noConfusion h
  | cons v vs ih =>
    rw [keyIdx] at h
    by_cases hv : v.key = k
    · exact ⟨v, List.mem_cons_self v vs, hv⟩
    · rw [if_neg hv] at h
      cases hj : keyIdx k vs with
      | none => rw [hj] at h; exact Option.noConfusion h
      | some j =>
        obtain ⟨w, hw, hwk⟩ := ih hj
        exact ⟨w, List.mem_cons_of_mem v hw, hwk⟩

lemma bumpNormal_last (n : Q3) (l : List VertexData) (x : VertexData) :
    bumpNormal n l.length (l ++ [x]) = l ++ [{ x with nsum := x.nsum + n }] := by
  induction l with
  | nil => rfl
  | cons v vs ih => simpa [bumpNormal] using ih

lemma bumpNormal_map_key (n : Q3) (i : ℕ) (l : List VertexData) :
    (bumpNormal n i l).map VertexData.key = l.map VertexData.key := by
  induction l generalizing i with
  | nil => cases i <;> rfl
  | cons v vs ih => cases i with
    | zero => rfl
    | succ j => simpa [bumpNormal] using ih j

/-- Effect of the normal-accumulation step when the key was found: every
entry of the bumped list matches an entry of the old list with the same
key and position, and its normal sum is the bucket sum extended by the
new occurrence.  Requires that at most one entry carries the matched key
(guaranteed by the welder's key-nodup invariant). -/
lemma bump_found_invariant (o : Q3 × Q3) :
    ∀ (l : List VertexData) (i : ℕ), keyIdx (quantKey o.2) l = some i →
      (l.map VertexData.key).Nodup →
      ∀ os : List (Q3 × Q3), (∀ v ∈ l, v.nsum = bucketSum os v.key) →
      ∀ v' ∈ bumpNormal o.1 i l,
        ∃ v ∈ l, v'.key = v.key ∧ v'.pos = v.pos ∧
          v'.nsum = bucketSum (os ++ [o]) v'.key := by
  intro l
  induction l with
  | nil => intro i h; exact Option.noConfusion h
  | cons v vs ih =>
    intro i h hnd os hsum v' hv'
    rw [keyIdx] at h
    rw [List.map_cons, List.nodup_cons] at hnd
    by_cases hv : v.key = quantKey o.2
    · rw [if_pos hv] at h
      cases h
      rw [bumpNormal] at hv'
      rcases List.mem_cons.1 hv' with hv' | hv'
      · subst hv'
        refine ⟨v, List.mem_cons_self v vs, rfl, rfl, ?_⟩
        rw [bucketSum_append, bucketSum_single_eq (by rw [hv]),
          hsum v (List.mem_cons_self v vs)]
      · refine ⟨v', List.mem_cons_of_mem v hv', rfl, rfl, ?_⟩
        have hne : ¬ quantKey o.2 = v'.key := by
          intro hkeq
          exact hnd.1 (by rw [hv, hkeq]; exact List.mem_map_of_mem _ hv')
        rw [bucketSum_append, bucketSum_single_ne hne,
          hsum v' (List.mem_cons_of_mem v hv'), add_zero]
    · rw [if_neg hv] at h
      cases hj : keyIdx (quantKey o.2) vs with
      | none => rw [hj] at h; exact Option.noConfusion h
      | some j =>
        rw [hj] at h
        replace h : some (j + 1) = some i := h
        cases h
        rw [bumpNormal] at hv'
        rcases List.mem_cons.1 hv' with hv' | hv'
        · subst hv'
          refine ⟨v', List.mem_cons_self _ _, rfl, rfl, ?_⟩
          have hne : ¬ quantKey o.2 = v'.key := fun hkeq => hv hkeq.symm
          rw [bucketSum_append, bucketSum_single_ne hne,
            hsum v' (List.mem_cons_self _ _), add_zero]
        · obtain ⟨w, hw, h1, h2, h3⟩ := ih j hj hnd.2
            os (fun u hu => hsum u (List.mem_cons_of_mem v hu)) v' hv'
          exact ⟨w, List.mem_cons_of_mem v hw, h1, h2, h3⟩

/-- Invariant tying the welder's unique-vertex list to the occurrence
list processed so far: keys are pairwise distinct, each entry's key is
its position's quantization and its position stems from an occurrence,
the key set matches the occurrence key set, and each entry's normal sum
is its bucket sum. -/
def WellFormed (os : List (Q3 × Q3)) (vs : List VertexData) : Prop :=
  (vs.map VertexData.key).Nodup ∧
  (∀ v ∈ vs, v.key = quantKey v.pos ∧ v.pos ∈ os.map Prod.snd) ∧
  (∀ k : Key, (∃ v ∈ vs, v.key = k) ↔ (∃ o ∈ os, quantKey o.2 = k)) ∧
  (∀ v ∈ vs, v.nsum = bucketSum os v.key)

lemma wellFormed_weldOcc {os : List (Q3 × Q3)} {st : WeldState}
    (h : WellFormed os st.verts) (o : Q3 × Q3) :
    WellFormed (os ++ [o]) (weldOcc st o).verts := by
  obtain ⟨hnd, hpos, hkeys, hsum⟩ := h
  rw [weldOcc]
  cases hk : keyIdx (quantKey o.2) st.verts with
  | some i =>
    refine ⟨?_, ?_, ?_, ?_⟩
    · rw [bumpNormal_map_key]
      exact hnd
    · intro v' hv'
      obtain ⟨v, hv, h1, h2, _⟩ := bump_found_invariant o st.verts i hk hnd os hsum v' hv'
      refine ⟨?_, ?_⟩
      · rw [h1, h2]
        exact (hpos v hv).1
      · rw [List.map_append]
        exact List.mem_append_left _ (by rw [h2]; exact (hpos v hv).2)
    · intro k
      have hmem : ∀ v', v' ∈ bumpNormal o.1 i st.verts → ∃ v ∈ st.verts, v'.key = v.key := by
        intro v' hv'
        obtain ⟨v, hv, h1, _, _⟩ := bump_found_invariant o st.verts i hk hnd os hsum v' hv'
        exact ⟨v, hv, h1⟩
      constructor
      · rintro ⟨v', hv', rfl⟩
        obtain ⟨v, hv, h1⟩ := hmem v' hv'
        obtain ⟨o', ho', hko'⟩ := (hkeys v'.key).mp ⟨v, hv, h1.symm⟩
        exact ⟨o', List.mem_append_left _ ho', hko'⟩
      · rintro ⟨o', ho', rfl⟩
        rcases List.mem_append.1 ho' with ho' | ho'
        · obtain ⟨v, hv, hkv⟩ := (hkeys _).mpr ⟨o', ho', rfl⟩
          have : v.key ∈ (bumpNormal o.1 i st.verts).map VertexData.key := by
            rw [bumpNormal_map_key]
            exact List.mem_map_of_mem _ hv
          obtain ⟨v', hv', hv'k⟩ := List.mem_map.1 this
          exact ⟨v', hv', by rw [hv'k, hkv]⟩
        · simp only [List.mem_singleton] at ho'
          obtain ⟨v, hv, hkv⟩ := keyIdx_some_mem hk
          have : v.key ∈ (bumpNormal o.1 i st.verts).map VertexData.key := by
            rw [bumpNormal_map_key]
            exact List.mem_map_of_mem _ hv
          obtain ⟨v', hv', hv'k⟩ := List.mem_map.1 this
          exact ⟨v', hv', by rw [hv'k, hkv, ho']⟩
    · intro v' hv'
      obtain ⟨v, hv, _, _, h3⟩ := bump_found_invariant o st.verts i hk hnd os hsum v' hv'
      exact h3
  | none =>
    have habs : ∀ v ∈ st.verts, ¬ v.key = quantKey o.2 := keyIdx_none_iff.mp hk
    rw [bumpNormal_last]
    have hnewsum : bucketSum os (quantKey o.2) = 0 := by
      apply bucketSum_eq_zero
      intro o' ho' hko'
      obtain ⟨v, hv, hkv⟩ := (hkeys _).mpr ⟨o', ho', hko'⟩
      exact habs v hv hkv
    refine ⟨?_, ?_, ?_, ?_⟩
    · rw [List.map_append, List.nodup_append]
      refine ⟨hnd, by simp, ?_⟩
      intro k hkmem hknew
      simp only [List.map_cons, List.map_nil, List.mem_singleton] at hknew
      obtain ⟨v, hv, hkv⟩ := List.mem_map.1 hkmem
      subst hknew
      exact habs v hv hkv
    · intro v' hv'
      rcases List.mem_append.1 hv' with hv' | hv'
      · obtain ⟨h1, h2⟩ := hpos v' hv'
        exact ⟨h1, by rw [List.map_append]; exact List.mem_append_left _ h2⟩
      · simp only [List.mem_singleton] at hv'
        subst hv'
        exact ⟨rfl, by simp⟩
    · intro k
      constructor
      · rintro ⟨v', hv', rfl⟩
        rcases List.mem_append.1 hv' with hv' | hv'
        · obtain ⟨o', ho', hko'⟩ := (hkeys v'.key).mp ⟨v', hv', rfl⟩
          exact ⟨o', List.mem_append_left _ ho', hko'⟩
        · simp only [List.mem_singleton] at hv'
          subst hv'
          exact ⟨o, List.mem_append_right _ (by simp), rfl⟩
      · rintro ⟨o', ho', rfl⟩
        rcases List.mem_append.1 ho' with ho' | ho'
        · obtain ⟨v, hv, hkv⟩ := (hkeys _).mpr ⟨o', ho', rfl⟩
          exact ⟨v, List.mem_append_left _ hv, hkv⟩
        · simp only [List.mem_singleton] at ho'
          exact ⟨⟨quantKey o.2, o.2, 0 + o.1⟩, List.mem_append_right _ (by simp),
            by rw [ho']⟩
    · intro v' hv'
      rcases List.mem_append.1 hv' with hv' | hv'
      · rw [bucketSum_append, hsum v' hv', bucketSum_single_ne, add_zero]
        intro hko
        exact habs v' hv' (by rw [hko])
      · simp only [List.mem_singleton] at hv'
        subst hv'
        show 0 + o.1 = bucketSum (os ++ [o]) (quantKey o.2)
        rw [bucketSum_append, hnewsum, bucketSum_single_eq rfl, zero_add]

lemma wellFormed_foldl (os' : List (Q3 × Q3)) :
    ∀ (os : List (Q3 × Q3)) (st : WeldState), WellFormed os st.verts →
      WellFormed (os ++ os') ((os'.foldl weldOcc st).verts) := by
  induction os' with
  | nil => intro os st h; simpa using h
  | cons o rest ih =>
    intro os st h
    have := ih (os ++ [o]) (weldOcc st o) (wellFormed_weldOcc h o)
    simpa using this

/-- The welder's result is well-formed with respect to the full
occurrence list. -/
lemma wellFormed_weldFaces (faces : List Face) :
    WellFormed (occs faces) (weldFaces faces).verts := by
  have := wellFormed_foldl (occs faces) [] ⟨[], []⟩
    ⟨List.nodup_nil, by simp, by simp, by simp⟩
  rw [weldFaces, weldFaces_eq_foldl_occs]
  simpa using this

/-- Membership transfer between the unique-vertex lists of two welds whose
occurrence lists are permutations, assuming colliding occurrences carry
identical positions. -/
lemma weld_mem_transfer {l l' : List Face}
    (hocc : (occs l).Perm (occs l'))
    (hb : ∀ o₁ ∈ occs l', ∀ o₂ ∈ occs l',
      quantKey o₁.2 = quantKey o₂.2 → o₁.2 = o₂.2) :
    ∀ v ∈ (weldFaces l).verts, v ∈ (weldFaces l').verts := by
  intro v hv
  obtain ⟨nd1, hpos1, hkeys1, hsum1⟩ := wellFormed_weldFaces l
  obtain ⟨nd2, hpos2, hkeys2, hsum2⟩ := wellFormed_weldFaces l'
  obtain ⟨hvk, hvpos⟩ := hpos1 v hv
  obtain ⟨o, ho, hop⟩ := List.mem_map.1 hvpos
  have ho' : o ∈ occs l' := hocc.mem_iff.mp ho
  have : ∃ w ∈ (weldFaces l').verts, w.key = v.key := by
    apply (hkeys2 v.key).mpr
    exact ⟨o, ho', by rw [hop, ← hvk]⟩
  obtain ⟨w, hw, hwk⟩ := this
  obtain ⟨hwkq, hwpos⟩ := hpos2 w hw
  obtain ⟨o₂, ho₂, ho₂p⟩ := List.mem_map.1 hwpos
  have hkeq : quantKey o.2 = quantKey o₂.2 := by
    rw [hop, ho₂p, ← hvk, ← hwkq, hwk]
  have hpos_eq : o.2 = o₂.2 := hb o ho' o₂ ho₂ hkeq
  have h2 : w.pos = v.pos := by rw [← ho₂p, ← hpos_eq, hop]
  have h3 : w.nsum = v.nsum := by
    rw [hsum2 w hw, hsum1 v hv, hwk, ← bucketSum_perm hocc]
  have hvw : v = w := by
    rw [show w = (⟨w.key, w.pos, w.nsum⟩ : VertexData) from rfl, hwk, h2, h3]
  rw [hvw]
  exact hw

/-- C4: welding two triangle soups that are permutations of each other's
face lists — with colliding vertex occurrences carrying identical
positions — produces the same multiset of unique positions and the same
multiset of final normalized normals (the index assignment may differ). -/
theorem weld_perm_invariant (l l' : List Face) (hp : l.Perm l')
    (hb : ∀ o₁ ∈ occs l, ∀ o₂ ∈ occs l,
      quantKey o₁.2 = quantKey o₂.2 → o₁.2 = o₂.2) :
    ((weldFaces l).verts.map VertexData.pos).Perm
      ((weldFaces l').verts.map VertexData.pos) ∧
    ((weldFaces l).verts.map (fun v => finalNormal v.nsum)).Perm
      ((weldFaces l').verts.map (fun v => finalNormal v.nsum)) := by
  have hocc : (occs l).Perm (occs l') := hp.flatMap_right faceOccs
  have hb' : ∀ o₁ ∈ occs l', ∀ o₂ ∈ occs l',
      quantKey o₁.2 = quantKey o₂.2 → o₁.2 = o₂.2 := fun o₁ h1 o₂ h2 =>
    hb o₁ (hocc.mem_iff.mpr h1) o₂ (hocc.mem_iff.mpr h2)
  suffices hv : (weldFaces l).verts.Perm ((weldFaces l').verts) by
    exact ⟨hv.map _, hv.map _⟩
  have nd1 : (weldFaces l).verts.Nodup := (wellFormed_weldFaces l).1.of_map
  have nd2 : (weldFaces l').verts.Nodup := (wellFormed_weldFaces l').1.of_map
  rw [List.perm_ext_iff_of_nodup nd1 nd2]
  intro v
  exact ⟨weld_mem_transfer hocc hb' v, weld_mem_transfer hocc.symm hb v⟩

/-- Key of the position `(1,1,0)`. -/
lemma quantKey_p110 : quantKey (1, 1, 0) = (10000, 10000, 0) := by
  norm_num [quantKey, float3EpsNew, roundToI32, rustRound, i32Max, i32Min,
    Prod.ext_iff]

/-- C4 witness: two distinct triangles sharing an edge, processed in both
orders, yield permutation-equal position lists. -/
theorem weld_perm_invariant_witness :
    ([⟨(0, 0, 1), (0, 0, 0), (1, 0, 0), (0, 1, 0)⟩,
        ⟨(0, 0, 1), (0, 0, 0), (1, 0, 0), (1, 1, 0)⟩] : List Face).Perm
      [⟨(0, 0, 1), (0, 0, 0), (1, 0, 0), (1, 1, 0)⟩,
        ⟨(0, 0, 1), (0, 0, 0), (1, 0, 0), (0, 1, 0)⟩] ∧
    ((weldFaces [⟨(0, 0, 1), (0, 0, 0), (1, 0, 0), (0, 1, 0)⟩,
        ⟨(0, 0, 1), (0, 0, 0), (1, 0, 0), (1, 1, 0)⟩]).verts.map
      VertexData.pos).Perm
      ((weldFaces [⟨(0, 0, 1), (0, 0, 0), (1, 0, 0), (1, 1, 0)⟩,
        ⟨(0, 0, 1), (0, 0, 0), (1, 0, 0), (0, 1, 0)⟩]).verts.map
      VertexData.pos) := by
  have hp : ([⟨(0, 0, 1), (0, 0, 0), (1, 0, 0), (0, 1, 0)⟩,
      ⟨(0, 0, 1), (0, 0, 0), (1, 0, 0), (1, 1, 0)⟩] : List Face).Perm
      [⟨(0, 0, 1), (0, 0, 0), (1, 0, 0), (1, 1, 0)⟩,
        ⟨(0, 0, 1), (0, 0, 0), (1, 0, 0), (0, 1, 0)⟩] :=
    List.Perm.swap _ _ _
  refine ⟨hp, (weld_perm_invariant _ _ hp ?_).1⟩
  intro o₁ h1 o₂ h2
  simp only [occs, faceOccs, List.flatMap_cons, List.flatMap_nil,
    List.append_nil, List.cons_append, List.nil_append, List.mem_cons,
    List.not_mem_nil, or_false] at h1 h2
  rcases h1 with rfl | rfl | rfl | rfl | rfl | rfl <;>
    rcases h2 with rfl | rfl | rfl | rfl | rfl | rfl <;>
    simp [-Prod.mk_zero_zero, quantKey_p000, quantKey_p100, quantKey_p010,
      quantKey_p110, Prod.ext_iff]

/-! ## Vec3 kernel (`src/math/vec3.rs`)

Embedded over ℝ (ideal `f32`).  The zero-vector aborts in `normalize` and
`cross` are embedded as `none`. -/

/-- 3-component vector (`Vec3` in `vec3.rs`). -/
structure Vec3 where
  x : ℝ
  y : ℝ
  z : ℝ

/-- `Vec3::ZERO`. -/
def Vec3.zero : Vec3 := ⟨0, 0, 0⟩

/-- `Vec3::UNIT_Y`. -/
def Vec3.unitY : Vec3 := ⟨0, 1, 0⟩

noncomputable instance : Add Vec3 :=
  ⟨fun a b => ⟨a.x + b.x, a.y + b.y, a.z + b.z⟩⟩

noncomputable instance : Sub Vec3 :=
  ⟨fun a b => ⟨a.x - b.x, a.y - b.y, a.z - b.z⟩⟩

/-- `impl Mul<f32> for Vec3` (componentwise scaling). -/
noncomputable instance : HMul Vec3 ℝ Vec3 :=
  ⟨fun v s => ⟨v.x * s, v.y * s, v.z * s⟩⟩

/-- `Vec3::magnitude`. -/
noncomputable def Vec3.magnitude (v : Vec3) : ℝ :=
  Real.sqrt (v.x * v.x + v.y * v.y + v.z * v.z)

/-- `impl Div<f32> for Vec3` (componentwise). -/
noncomputable def Vec3.divScalar (v : Vec3) (s : ℝ) : Vec3 :=
  ⟨v.x / s, v.y / s, v.z / s⟩

/-- `Vec3::normalize`: aborts ("Attempt to normalize a zero vector")
exactly when the magnitude is zero, else divides by the magnitude. -/
noncomputable def Vec3.normalize (v : Vec3) : Option Vec3 :=
  if v.magnitude = 0 then none else some (v.divScalar v.magnitude)

/-- `Vec3::cross`: aborts ("Cannot compute cross product with zero
vector") when either operand has zero magnitude, else the standard
component formula. -/
noncomputable def Vec3.cross (v w : Vec3) : Option Vec3 :=
  if v.magnitude = 0 ∨ w.magnitude = 0 then none
  else some ⟨v.y * w.z - v.z * w.y, v.z * w.x - v.x * w.z, v.x * w.y - v.y * w.x⟩

lemma Vec3.magnitude_eq_zero_iff (v : Vec3) : v.magnitude = 0 ↔ v = Vec3.zero := by
  obtain ⟨x, y, z⟩ := v
  rw [Vec3.magnitude, Real.sqrt_eq_zero', Vec3.zero]
  simp only [Vec3.mk.injEq]
  constructor
  · intro h
    refine ⟨?_, ?_, ?_⟩ <;>
      nlinarith [mul_self_nonneg x, mul_self_nonneg y, mul_self_nonneg z]
  · rintro ⟨rfl, rfl, rfl⟩
    norm_num

/-- C6: `normalize` fails exactly on zero magnitude (equivalently the zero
vector) and otherwise returns the componentwise division by the
magnitude; `cross` fails exactly when either operand has zero magnitude
and otherwise returns the standard component formula.  No degraded result
is produced on a failure branch (`none` has no payload). -/
theorem normalize_cross_fail_contract :
    (∀ v : Vec3,
      (v.normalize = none ↔ v.magnitude = 0) ∧
      (v.magnitude = 0 ↔ v = Vec3.zero) ∧
      (¬ v.magnitude = 0 → v.normalize = some (v.divScalar v.magnitude))) ∧
    (∀ v w : Vec3,
      (v.cross w = none ↔ v.magnitude = 0 ∨ w.magnitude = 0) ∧
      (¬ (v.magnitude = 0 ∨ w.magnitude = 0) →
        v.cross w = some ⟨v.y * w.z - v.z * w.y, v.z * w.x - v.x * w.z,
          v.x * w.y - v.y * w.x⟩)) := by
  refine ⟨fun v => ⟨?_, v.magnitude_eq_zero_iff, ?_⟩, fun v w => ⟨?_, ?_⟩⟩
  · rw [Vec3.normalize]
    split <;> simp_all
  · intro h
    rw [Vec3.normalize, if_neg h]
  · rw [Vec3.cross]
    split <;> simp_all
  · intro h
    rw [Vec3.cross, if_neg h]

/-- C6 witness: the zero vector fails to normalize; `(3,4,0)` normalizes;
`(1,0,0) × (0,1,0)` succeeds with the component formula. -/
theorem normalize_cross_fail_contract_witness :
    Vec3.normalize ⟨0, 0, 0⟩ = none ∧
    Vec3.normalize ⟨3, 4, 0⟩ =
      some (Vec3.divScalar ⟨3, 4, 0⟩ (Vec3.magnitude ⟨3, 4, 0⟩)) ∧
    Vec3.cross ⟨1, 0, 0⟩ ⟨0, 1, 0⟩ =
      some ⟨0 * 0 - 0 * 1, 0 * 0 - 1 * 0, 1 * 1 - 0 * 0⟩ := by
  have hz : Vec3.magnitude ⟨0, 0, 0⟩ = 0 :=
    (normalize_cross_fail_contract.1 ⟨0, 0, 0⟩).2.1.mpr rfl
  have hne : ∀ a b c : ℝ, ¬ (a = 0 ∧ b = 0 ∧ c = 0) →
      ¬ Vec3.magnitude ⟨a, b, c⟩ = 0 := by
    intro a b c h hm
    have := (normalize_cross_fail_contract.1 ⟨a, b, c⟩).2.1.mp hm
    rw [Vec3.zero, Vec3.mk.injEq] at this
    exact h this
  refine ⟨(normalize_cross_fail_contract.1 ⟨0, 0, 0⟩).1.mpr hz,
    (normalize_cross_fail_contract.1 ⟨3, 4, 0⟩).2.2
      (hne 3 4 0 (by norm_num)), ?_⟩
  exact (normalize_cross_fail_contract.2 ⟨1, 0, 0⟩ ⟨0, 1, 0⟩).2
    (by
      push_neg
      exact ⟨hne 1 0 0 (by norm_num), hne 0 1 0 (by norm_num)⟩)

/-! ## Matrix4 kernel (`src/math/matrix_4_by_4.rs`)

The source stores 16 floats column-major: flat index `r + c*4` holds
entry (row `r`, column `c`).  The embedding indexes by (row, column)
directly; each builder is written as the row-major matrix literal of the
same entries, with the source's flat indices noted. -/

/-- A 4×4 real matrix (the source's `Matrix4.m`, reindexed from flat
column-major `m[r + c*4]` to `(r, c)`). -/
abbrev Matrix4 := Matrix (Fin 4) (Fin 4) ℝ

/-- `Matrix4::multiply`: entry (row, col) is
`Σ_i self.m[row + i*4] * other.m[i + col*4]`. -/
noncomputable def Matrix4.multiply (A B : Matrix4) : Matrix4 :=
  Matrix.of fun row col => ∑ i : Fin 4, A row i * B i col

lemma Matrix4.multiply_eq_mul (A B : Matrix4) : Matrix4.multiply A B = A * B := by
  ext r c
  rw [Matrix.mul_apply]
  rfl

/-- `Matrix4::identity`. -/
noncomputable def Matrix4.identity : Matrix4 :=
  !![1, 0, 0, 0; 0, 1, 0, 0; 0, 0, 1, 0; 0, 0, 0, 1]

/-- `Matrix4::translate` (identity with `m[12]=tx, m[13]=ty, m[14]=tz`,
i.e. column 3 = `(tx, ty, tz, 1)`). -/
noncomputable def Matrix4.translate (tx ty tz : ℝ) : Matrix4 :=
  !![1, 0, 0, tx; 0, 1, 0, ty; 0, 0, 1, tz; 0, 0, 0, 1]

/-- `Matrix4::rotate_y` (identity with `m[0]=c, m[2]=s, m[8]=-s,
m[10]=c`). -/
noncomputable def Matrix4.rotate_y (angle_radians : ℝ) : Matrix4 :=
  !![Real.cos angle_radians, 0, -Real.sin angle_radians, 0;
     0, 1, 0, 0;
     Real.sin angle_radians, 0, Real.cos angle_radians, 0;
     0, 0, 0, 1]

/-- `Matrix4::scale` (uniform: `m[0]=m[5]=m[10]=s`). -/
noncomputable def Matrix4.scale (s : ℝ) : Matrix4 :=
  !![s, 0, 0, 0; 0, s, 0, 0; 0, 0, s, 0; 0, 0, 0, 1]

/-- `Matrix4::look_at`: forward `f = normalize(center - eye)`, right
`s = normalize(cross(f, up))`, true-up `u = cross(s, f)`; the rotation
basis (rows `s`, `u`, `-f`) is right-multiplied by a translation of
`-eye`.  The internal `normalize`/`cross` aborts propagate as `none`. -/
noncomputable def Matrix4.look_at (eye center up : Vec3) : Option Matrix4 :=
  (Vec3.normalize (center - eye)).bind fun f =>
  (f.cross up).bind fun fxu =>
  fxu.normalize.bind fun s =>
  (s.cross f).map fun u =>
    Matrix4.multiply
      !![s.x, s.y, s.z, 0;
         u.x, u.y, u.z, 0;
         -f.x, -f.y, -f.z, 0;
         0, 0, 0, 1]
      (Matrix4.translate (-eye.x) (-eye.y) (-eye.z))

/-- The translation part of `look_at` sends the homogeneous eye point to
the homogeneous origin. -/
lemma translate_neg_eye_mulVec (eye : Vec3) :
    (Matrix4.translate (-eye.x) (-eye.y) (-eye.z)).mulVec
      ![eye.x, eye.y, eye.z, 1] = ![0, 0, 0, 1] := by
  funext i
  fin_cases i <;>
    simp [Matrix4.translate, Matrix.mulVec, Matrix.dotProduct,
      Fin.sum_univ_four]

/-- C8: whenever `look_at`'s internal normalizations and cross products
succeed, the resulting matrix maps the homogeneous eye point to the
camera-space origin `(0,0,0,1)`: the matrix first translates by `-eye`
(sending the eye to the origin) and then applies a rotation whose last
row and column are those of the identity. -/
theorem look_at_maps_eye_to_origin (eye center up : Vec3) (M : Matrix4)
    (h : Matrix4.look_at eye center up = some M) :
    M.mulVec ![eye.x, eye.y, eye.z, 1] = ![0, 0, 0, 1] := by
  rw [Matrix4.look_at] at h
  obtain ⟨f, hf, h⟩ := Option.bind_eq_some.1 h
  obtain ⟨fxu, hfxu, h⟩ := Option.bind_eq_some.1 h
  obtain ⟨s, hs, h⟩ := Option.bind_eq_some.1 h
  obtain ⟨u, hu, hM⟩ := Option.map_eq_some'.1 h
  subst hM
  rw [Matrix4.multiply_eq_mul, ← Matrix.mulVec_mulVec, translate_neg_eye_mulVec]
  funext i
  fin_cases i <;>
    simp [Matrix.mulVec, Matrix.dotProduct, Fin.sum_univ_four]

/-- C8 witness: at eye `(0,0,0)`, center `(0,0,-1)`, up `(0,1,0)` the
`look_at` preconditions hold (all internal normalizations succeed), and
the resulting matrix fixes the homogeneous origin. -/
theorem look_at_maps_eye_to_origin_witness :
    Matrix4.look_at ⟨0, 0, 0⟩ ⟨0, 0, -1⟩ ⟨0, 1, 0⟩ =
      some (Matrix4.multiply
        !![1, 0, 0, 0; 0, 1, 0, 0; 0, 0, 1, 0; 0, 0, 0, 1]
        (Matrix4.translate 0 0 0)) ∧
    (Matrix4.multiply
        !![1, 0, 0, 0; 0, 1, 0, 0; 0, 0, 1, 0; 0, 0, 0, 1]
        (Matrix4.translate 0 0 0)).mulVec ![0, 0, 0, 1] = ![0, 0, 0, 1] := by
  have hsub : (⟨0, 0, -1⟩ - ⟨0, 0, 0⟩ : Vec3) = ⟨0, 0, -1⟩ := by
    show (⟨0 - 0, 0 - 0, -1 - 0⟩ : Vec3) = ⟨0, 0, -1⟩
    norm_num
  have hmagZ : Vec3.magnitude ⟨0, 0, -1⟩ = 1 := by
    norm_num [Vec3.magnitude, Real.sqrt_one]
  have hmagY : Vec3.magnitude ⟨0, 1, 0⟩ = 1 := by
    norm_num [Vec3.magnitude, Real.sqrt_one]
  have hmagX : Vec3.magnitude ⟨1, 0, 0⟩ = 1 := by
    norm_num [Vec3.magnitude, Real.sqrt_one]
  have hn1 : Vec3.normalize ⟨0, 0, -1⟩ = some ⟨0, 0, -1⟩ := by
    rw [Vec3.normalize, hmagZ, if_neg (by norm_num)]
    norm_num [Vec3.divScalar]
  have hc1 : Vec3.cross ⟨0, 0, -1⟩ ⟨0, 1, 0⟩ = some ⟨1, 0, 0⟩ := by
    rw [Vec3.cross, if_neg (by rw [hmagZ, hmagY]; norm_num)]
    norm_num
  have hn2 : Vec3.normalize ⟨1, 0, 0⟩ = some ⟨1, 0, 0⟩ := by
    rw [Vec3.normalize, hmagX, if_neg (by norm_num)]
    norm_num [Vec3.divScalar]
  have hc2 : Vec3.cross ⟨1, 0, 0⟩ ⟨0, 0, -1⟩ = some ⟨0, 1, 0⟩ := by
    rw [Vec3.cross, if_neg (by rw [hmagX, hmagZ]; norm_num)]
    norm_num
  have heval : Matrix4.look_at ⟨0, 0, 0⟩ ⟨0, 0, -1⟩ ⟨0, 1, 0⟩ =
      some (Matrix4.multiply
        !![1, 0, 0, 0; 0, 1, 0, 0; 0, 0, 1, 0; 0, 0, 0, 1]
        (Matrix4.translate 0 0 0)) := by
    rw [Matrix4.look_at, hsub, hn1, Option.some_bind, hc1, Option.some_bind,
      hn2, Option.some_bind, hc2, Option.map_some']
    congr 1
    all_goals norm_num
  refine ⟨heval, ?_⟩
  have := look_at_maps_eye_to_origin ⟨0, 0, 0⟩ ⟨0, 0, -1⟩ ⟨0, 1, 0⟩ _ heval
  simpa using this

/-! ## Scene objects and the render-time model matrix
(`src/scene_object.rs`, `src/graphics/render.rs` lines 74-84) -/

/-- Per-instance transform state of a scene object (GPU handle and index
count omitted: they carry no algebraic content). -/
structure SceneObject where
  base_transform : Matrix4
  angle : ℝ
  angular_speed : ℝ
  scale_factor : ℝ

/-- The model matrix `render_scene` hands to the GPU for one object: the
angle is first advanced by `angular_speed * 0.016`, then
`local_anim = multiply(scale(global_scale), rotate_y(angle))` and
`final_model = multiply(local_anim, base_transform)`.  Note the scale
comes from `render_scene`'s `global_scale` argument — the object's
`scale_factor` field is not read. -/
noncomputable def renderModelMatrix (obj : SceneObject) (global_scale : ℝ) : Matrix4 :=
  let angle' := obj.angle + obj.angular_speed * 0.016
  Matrix4.multiply
    (Matrix4.multiply (Matrix4.scale global_scale) (Matrix4.rotate_y angle'))
    obj.base_transform

/-- C5 (amended): the render-time model matrix is
`scale(global_scale) · rotate_y(angle + angular_speed·0.016) ·
base_transform`: applied to any point, the base placement acts first,
then the Y-rotation, then the global scale.  The object's own
`scale_factor` field plays no role. -/
theorem renderModelMatrix_composition (obj : SceneObject) (gs : ℝ) (p : Fin 4 → ℝ) :
    (renderModelMatrix obj gs).mulVec p =
      (Matrix4.scale gs).mulVec
        ((Matrix4.rotate_y (obj.angle + obj.angular_speed * 0.016)).mulVec
          (obj.base_transform.mulVec p)) := by
  rw [renderModelMatrix, Matrix4.multiply_eq_mul, Matrix4.multiply_eq_mul,
    Matrix.mulVec_mulVec, Matrix.mulVec_mulVec, Matrix.mul_assoc]

/-- C5 counterexample: the claim that the model matrix equals
`base_transform · rotate_y(angle) · scale(scale_factor)` fails: for a
unit-translation base, zero angle, `scale_factor = 3` and
`global_scale = 2`, the code's matrix has entry (0,0) equal to 2 while
the claimed formula's entry is 3. -/
theorem renderModelMatrix_claimC5_false :
    ¬ (∀ (obj : SceneObject) (gs : ℝ),
        renderModelMatrix obj gs =
          Matrix4.multiply
            (Matrix4.multiply obj.base_transform (Matrix4.rotate_y obj.angle))
            (Matrix4.scale obj.scale_factor)) := by
  intro h
  have hc := h ⟨Matrix4.translate 1 0 0, 0, 0, 3⟩ 2
  have hent := congrFun (congrFun hc 0) 0
  have hL : renderModelMatrix ⟨Matrix4.translate 1 0 0, 0, 0, 3⟩ 2 0 0 = 2 := by
    rw [renderModelMatrix]
    simp [Matrix4.multiply, Matrix4.scale, Matrix4.rotate_y, Matrix4.translate,
      Fin.sum_univ_four, Real.cos_zero, Real.sin_zero]
  have hR : (Matrix4.multiply
      (Matrix4.multiply (Matrix4.translate 1 0 0) (Matrix4.rotate_y 0))
      (Matrix4.scale 3)) 0 0 = 3 := by
    simp [Matrix4.multiply, Matrix4.scale, Matrix4.rotate_y, Matrix4.translate,
      Fin.sum_univ_four, Real.cos_zero, Real.sin_zero]
  rw [hL] at hent
  rw [show (⟨Matrix4.translate 1 0 0, 0, 0, 3⟩ : SceneObject).base_transform =
    Matrix4.translate 1 0 0 from rfl] at hent
  rw [show (⟨Matrix4.translate 1 0 0, 0, 0, 3⟩ : SceneObject).angle = 0 from rfl,
    show (⟨Matrix4.translate 1 0 0, 0, 0, 3⟩ : SceneObject).scale_factor = 3
      from rfl] at hent
  rw [hR] at hent
  norm_num at hent

/-! ## Camera model (`src/graphics/camara.rs`) -/

/-- Camera state (`Camera` struct). -/
structure Camera where
  position : Vec3
  yaw : ℝ
  pitch : ℝ
  speed : ℝ
  vertical_speed : ℝ

/-- `Camera::new`: initial yaw/pitch 0, speeds 10. -/
noncomputable def Camera.new (position : Vec3) : Camera :=
  ⟨position, 0, 0, 10, 10⟩

/-- `Camera::process_mouse`: sensitivity 0.001, yaw increases with Δx,
pitch decreases with Δy, then pitch is clamped by the two sequential
`if`s to `[-1.5, 1.5]`. -/
noncomputable def Camera.process_mouse (cam : Camera) (delta_x delta_y : ℝ) : Camera :=
  let yaw' := cam.yaw + delta_x * 0.001
  let p1 := cam.pitch - delta_y * 0.001
  let p2 := if 1.5 < p1 then 1.5 else p1
  let p3 := if p2 < -1.5 then -1.5 else p2
  { cam with yaw := yaw', pitch := p3 }

lemma process_mouse_pitch_mem (cam : Camera) (dx dy : ℝ) :
    (cam.process_mouse dx dy).pitch ∈ Set.Icc (-1.5 : ℝ) 1.5 := by
  rw [Camera.process_mouse]
  simp only [Set.mem_Icc]
  split_ifs with h1 h2 h3 <;> constructor <;> linarith

/-- C7: starting from any pitch in `[-1.5, 1.5]` (as at creation, where
pitch = 0), the pitch stays in `[-1.5, 1.5]` after any finite sequence of
`process_mouse` calls with arbitrary deltas. -/
theorem camera_pitch_invariant (cam : Camera)
    (h : cam.pitch ∈ Set.Icc (-1.5 : ℝ) 1.5) (ds : List (ℝ × ℝ)) :
    (ds.foldl (fun c d => c.process_mouse d.1 d.2) cam).pitch ∈
      Set.Icc (-1.5 : ℝ) 1.5 := by
  induction ds generalizing cam with
  | nil => exact h
  | cons d ds ih =>
    rw [List.foldl_cons]
    exact ih _ (process_mouse_pitch_mem cam d.1 d.2)

/-- C7 witness: a freshly created camera has pitch 0 in range, and a
concrete look update keeps it in range. -/
theorem camera_pitch_invariant_witness :
    (Camera.new ⟨0, 0, 0⟩).pitch ∈ Set.Icc (-1.5 : ℝ) 1.5 ∧
    (([((1 : ℝ), (4000 : ℝ))]).foldl
        (fun c d => c.process_mouse d.1 d.2) (Camera.new ⟨0, 0, 0⟩)).pitch ∈
      Set.Icc (-1.5 : ℝ) 1.5 := by
  have h0 : (Camera.new ⟨0, 0, 0⟩).pitch ∈ Set.Icc (-1.5 : ℝ) 1.5 := by
    rw [Camera.new]
    norm_num
  exact ⟨h0, camera_pitch_invariant _ h0 _⟩

/-- Movement keys consumed by `Camera::process_keys` (subset of
`VirtualKeyCode` the function inspects). -/
inductive KeyCode : Type where
  | w | a | s | d | space | lshift | rshift
deriving DecidableEq

/-- `Camera::get_forward_vector`. -/
noncomputable def Camera.get_forward_vector (cam : Camera) : Vec3 :=
  ⟨-(Real.sin cam.yaw * Real.cos cam.pitch),
   -Real.sin cam.pitch,
   -(Real.cos cam.yaw * Real.cos cam.pitch)⟩

/-- `Camera::process_keys`: computes the forward vector from yaw/pitch,
the right vector as `normalize(cross(forward, UNIT_Y))` (both fallible —
`none` embeds the aborts), then moves the position additively for each
pressed key. -/
noncomputable def Camera.process_keys (cam : Camera) (pressed : List KeyCode)
    (dt : ℝ) : Option Camera :=
  let velocity := cam.speed * dt
  let vertical_velocity := cam.vertical_speed * dt
  let forward := cam.get_forward_vector
  (forward.cross Vec3.unitY).bind fun fxu =>
  fxu.normalize.map fun right =>
    let up := Vec3.unitY
    let p1 := if KeyCode.w ∈ pressed then cam.position + forward * velocity
      else cam.position
    let p2 := if KeyCode.s ∈ pressed then p1 - forward * velocity else p1
    let p3 := if KeyCode.a ∈ pressed then p2 - right * velocity else p2
    let p4 := if KeyCode.d ∈ pressed then p3 + right * velocity else p3
    let p5 := if KeyCode.space ∈ pressed then p4 + up * vertical_velocity else p4
    let p6 := if KeyCode.lshift ∈ pressed ∨ KeyCode.rshift ∈ pressed
      then p5 - up * vertical_velocity else p5
    { cam with position := p6 }

lemma forward_magnitude_one (cam : Camera) :
    cam.get_forward_vector.magnitude = 1 := by
  rw [Camera.get_forward_vector, Vec3.magnitude]
  have h1 := Real.sin_sq_add_cos_sq cam.yaw
  have h2 := Real.sin_sq_add_cos_sq cam.pitch
  have hsum : -(Real.sin cam.yaw * Real.cos cam.pitch) *
        -(Real.sin cam.yaw * Real.cos cam.pitch) +
      -Real.sin cam.pitch * -Real.sin cam.pitch +
      -(Real.cos cam.yaw * Real.cos cam.pitch) *
        -(Real.cos cam.yaw * Real.cos cam.pitch) = 1 := by
    have expand : -(Real.sin cam.yaw * Real.cos cam.pitch) *
          -(Real.sin cam.yaw * Real.cos cam.pitch) +
        -Real.sin cam.pitch * -Real.sin cam.pitch +
        -(Real.cos cam.yaw * Real.cos cam.pitch) *
          -(Real.cos cam.yaw * Real.cos cam.pitch) =
        (Real.sin cam.yaw ^ 2 + Real.cos cam.yaw ^ 2) * Real.cos cam.pitch ^ 2 +
          Real.sin cam.pitch ^ 2 := by ring
    rw [expand, h1, one_mul]
    linarith
  rw [hsum]
  exact Real.sqrt_one

lemma cos_pitch_pos {cam : Camera} (h : cam.pitch ∈ Set.Icc (-1.5 : ℝ) 1.5) :
    0 < Real.cos cam.pitch := by
  have hpi := Real.pi_gt_three
  rw [Set.mem_Icc] at h
  apply Real.cos_pos_of_mem_Ioo
  rw [Set.mem_Ioo]
  constructor <;> linarith

/-- C9: with pitch in `[-1.5, 1.5]`, `process_keys` never reaches the
zero-vector abort branches of its internal `cross` and `normalize`: the
forward vector has magnitude 1, `forward × (0,1,0)` is nonzero because
`cos pitch > 0`, and the right-vector computation succeeds, so the whole
update returns a camera. -/
theorem process_keys_no_panic (cam : Camera)
    (h : cam.pitch ∈ Set.Icc (-1.5 : ℝ) 1.5) (pressed : List KeyCode) (dt : ℝ) :
    ∃ cam', cam.process_keys pressed dt = some cam' := by
  have hfm := forward_magnitude_one cam
  have humag : Vec3.unitY.magnitude = 1 := by
    rw [Vec3.unitY, Vec3.magnitude]
    norm_num [Real.sqrt_one]
  have hcross : cam.get_forward_vector.cross Vec3.unitY =
      some ⟨cam.get_forward_vector.y * Vec3.unitY.z -
          cam.get_forward_vector.z * Vec3.unitY.y,
        cam.get_forward_vector.z * Vec3.unitY.x -
          cam.get_forward_vector.x * Vec3.unitY.z,
        cam.get_forward_vector.x * Vec3.unitY.y -
          cam.get_forward_vector.y * Vec3.unitY.x⟩ := by
    have hcond : ¬ (cam.get_forward_vector.magnitude = 0 ∨
        Vec3.unitY.magnitude = 0) := by
      rw [hfm, humag]
      norm_num
    rw [Vec3.cross, if_neg hcond]
  have hcp := cos_pitch_pos h
  have hne : ¬ (⟨cam.get_forward_vector.y * Vec3.unitY.z -
        cam.get_forward_vector.z * Vec3.unitY.y,
      cam.get_forward_vector.z * Vec3.unitY.x -
        cam.get_forward_vector.x * Vec3.unitY.z,
      cam.get_forward_vector.x * Vec3.unitY.y -
        cam.get_forward_vector.y * Vec3.unitY.x⟩ : Vec3) = Vec3.zero := by
    intro hzero
    rw [Vec3.zero, Vec3.mk.injEq] at hzero
    obtain ⟨hz1, _, hz3⟩ := hzero
    simp only [show Vec3.unitY.x = 0 from rfl, show Vec3.unitY.y = 1 from rfl,
      show Vec3.unitY.z = 0 from rfl] at hz1 hz3
    rw [show cam.get_forward_vector.z = -(Real.cos cam.yaw * Real.cos cam.pitch)
      from rfl] at hz1
    rw [show cam.get_forward_vector.x = -(Real.sin cam.yaw * Real.cos cam.pitch)
      from rfl] at hz3
    have hcy : Real.cos cam.yaw = 0 := by
      rcases mul_eq_zero.1
        (by linarith : Real.cos cam.yaw * Real.cos cam.pitch = 0) with hc | hc
      · exact hc
      · exact absurd hc (ne_of_gt hcp)
    have hsy : Real.sin cam.yaw = 0 := by
      rcases mul_eq_zero.1
        (by linarith : Real.sin cam.yaw * Real.cos cam.pitch = 0) with hc | hc
      · exact hc
      · exact absurd hc (ne_of_gt hcp)
    have := Real.sin_sq_add_cos_sq cam.yaw
    rw [hcy, hsy] at this
    norm_num at this
  have hmne : ¬ (⟨cam.get_forward_vector.y * Vec3.unitY.z -
        cam.get_forward_vector.z * Vec3.unitY.y,
      cam.get_forward_vector.z * Vec3.unitY.x -
        cam.get_forward_vector.x * Vec3.unitY.z,
      cam.get_forward_vector.x * Vec3.unitY.y -
        cam.get_forward_vector.y * Vec3.unitY.x⟩ : Vec3).magnitude = 0 := by
    intro hm
    exact hne ((Vec3.magnitude_eq_zero_iff _).mp hm)
  rw [Camera.process_keys, hcross, Option.some_bind, Vec3.normalize, if_neg hmne,
    Option.map_some']
  exact ⟨_, rfl⟩

/-- C9 witness: a freshly created camera satisfies the pitch bound and
`process_keys` succeeds on it. -/
theorem process_keys_no_panic_witness :
    (Camera.new ⟨0, 0, 0⟩).pitch ∈ Set.Icc (-1.5 : ℝ) 1.5 ∧
    ∃ cam', (Camera.new ⟨0, 0, 0⟩).process_keys [KeyCode.w] 1 = some cam' :=
  ⟨by rw [Camera.new]; norm_num,
    process_keys_no_panic _ (by rw [Camera.new]; norm_num) [KeyCode.w] 1⟩

end RustEngine
